import Mathlib

/-!
Shallow embedding of the keyword-extraction core of the Sentiment repository
(`src/app.py`, function `extract_keywords`, lines 64-72) together with proofs
of its specified properties.

The Python source is:

```
def extract_keywords(text, top_n=5):
    words = re.findall(r"[A-Za-z']+", text.lower())
    stop = set("""a an the and or but ... must""".split())
    filtered = [w for w in words if w not in stop and len(w) > 2]
    return Counter(filtered).most_common(top_n)
```

`re.findall` with the pattern `[A-Za-z']+` returns the maximal runs of ASCII
letters and apostrophes, scanned left to right.  `Counter` is a dictionary
whose keys appear in first-occurrence order; `most_common(n)` returns the
items sorted by count descending, with a stable tie-break (CPython's
`heapq.nlargest` decorates each item with a decreasing insertion index, so
equal counts keep insertion order), truncated to the first `n` items; a
negative `n` yields the empty list.
-/

namespace Sentiment

/-- The apostrophe character (code point 39), the `'` of the regex class. -/
def apos : Char := Char.ofNat 39

/-- A character matched by the regex class `[A-Za-z']`: an ASCII letter or an
apostrophe.  (`Char.isAlpha` is exactly `[A-Za-z]`.) -/
def isWordChar (c : Char) : Bool := c.isAlpha || c == apos

/-- Worker for `tokenize`: scans the text left to right, accumulating the
current (reversed) run of word characters in `acc` and emitting it when a
non-word character or the end of the text is reached.  This is the semantics
of `re.findall(r"[A-Za-z']+", s)`. -/
def tokenizeAux : List Char → List Char → List (List Char)
  | [], acc => if acc.isEmpty then [] else [acc.reverse]
  | c :: cs, acc =>
    if isWordChar c then tokenizeAux cs (c :: acc)
    else if acc.isEmpty then tokenizeAux cs []
    else acc.reverse :: tokenizeAux cs []

/-- `re.findall(r"[A-Za-z']+", s)`: the maximal runs of letters/apostrophes
in `s`, in order of occurrence. -/
def tokenize (cs : List Char) : List (List Char) := tokenizeAux cs []

/-- Spec-side reference definition of tokenization, following the spec's
words: "segment into tokens using the pattern one-or-more letters or
apostrophes; non-matching characters act as separators and are discarded".
It repeatedly drops separator characters and then takes one maximal run of
word characters. -/
def specRuns (cs : List Char) : List (List Char) :=
  match h : cs.dropWhile (fun c => !isWordChar c) with
  | [] => []
  | c :: rest =>
    (c :: rest.takeWhile isWordChar) :: specRuns (rest.dropWhile isWordChar)
termination_by cs.length
decreasing_by
  have h1 : (cs.dropWhile fun c => !isWordChar c).length ≤ cs.length :=
    (List.dropWhile_sublist _).length_le
  rw [h] at h1
  have h2 : (rest.dropWhile isWordChar).length ≤ rest.length :=
    (List.dropWhile_sublist _).length_le
  have h3 : (c :: rest).length = rest.length + 1 := List.length_cons c rest
  omega

/-- `words = re.findall(r"[A-Za-z']+", text.lower())` (line 65): the token
stream of the lower-cased text, as strings.  (`str.lower` maps `A`-`Z` to
`a`-`z`; `Char.toLower` does exactly that.) -/
def wordsOf (text : String) : List String :=
  (tokenize (text.data.map Char.toLower)).map (fun t => String.mk t)

/-- The fixed stop-word set of lines 66-70, literally the words of the
triple-quoted string in the source. -/
def stop : List String :=
  ["a", "an", "the", "and", "or", "but", "if", "then", "than", "this", "that",
   "is", "are", "was", "were", "be", "been", "being",
   "to", "of", "for", "in", "on", "at", "by", "with", "from", "as", "it",
   "its", "into", "up", "down", "over", "under", "out", "very", "really",
   "so", "not", "no", "yes", "i", "you", "he", "she", "we", "they", "them",
   "us", "our", "your", "their", "my", "mine", "ours", "yours", "theirs",
   "do", "does", "did", "doing", "have", "has", "had", "having",
   "will", "would", "should", "could", "can", "may", "might", "must"]

/-- `filtered = [w for w in words if w not in stop and len(w) > 2]`
(line 71). -/
def filteredWords (text : String) : List String :=
  (wordsOf text).filter (fun w => !(stop.contains w) && decide (2 < w.length))

/-- The distinct elements of `l` in order of first occurrence: the key order
of the dictionary built by `collections.Counter(l)` (Python dictionaries
preserve insertion order, and a key is inserted at its first occurrence). -/
def firstDedup : List String → List String
  | [] => []
  | t :: ts => t :: (firstDedup ts).filter (fun u => u != t)

/-- `Counter(l).items()`: each distinct element of `l` paired with its number
of occurrences in `l`, listed in first-occurrence order. -/
def counterItems (l : List String) : List (String × Nat) :=
  (firstDedup l).map (fun t => (t, l.count t))

/-- The sort order used by `Counter.most_common`: counts descending.
`countDescOrder a b` says `a` may be placed before `b`. -/
def countDescOrder (a b : String × Nat) : Prop := b.2 ≤ a.2

instance : DecidableRel countDescOrder := fun a b => Nat.decLe b.2 a.2

instance : IsTotal (String × Nat) countDescOrder :=
  ⟨fun a b => (Nat.le_total b.2 a.2).imp id id⟩

instance : IsTrans (String × Nat) countDescOrder :=
  ⟨fun _ _ _ h1 h2 => Nat.le_trans h2 h1⟩

/-- `Counter.most_common(n)`: the items stably sorted by count descending,
truncated to the first `n` (CPython's `heapq.nlargest(n, items, key=count)`);
for `n < 0` the result is empty (`Int.toNat` of a negative is `0`, matching
`nlargest`, which never reaches its `n >= size` shortcut for negative `n` and
builds an empty heap).  A stable insertion sort with the order
"`a` goes before `b` iff `b.count ≤ a.count`" realizes the stable descending
sort. -/
def most_common (l : List (String × Nat)) (n : Int) : List (String × Nat) :=
  (l.insertionSort countDescOrder).take n.toNat

/-- `extract_keywords(text, top_n=5)` (lines 64-72). -/
def extract_keywords (text : String) (top_n : Int := 5) : List (String × Nat) :=
  most_common (counterItems (filteredWords text)) top_n

/-! ### Unfolding equations for `specRuns` -/

theorem specRuns_nil : specRuns [] = [] := by
  unfold specRuns
  rfl

theorem specRuns_cons_word {c : Char} (cs : List Char) (hc : isWordChar c = true) :
    specRuns (c :: cs) =
      (c :: cs.takeWhile isWordChar) :: specRuns (cs.dropWhile isWordChar) := by
  rw [specRuns.eq_def (c :: cs)]
  split
  · next heq =>
    rw [List.dropWhile_cons_of_neg (by simp [hc])] at heq
    exact absurd heq (List.cons_ne_nil c cs)
  · next c1 rest heq =>
    rw [List.dropWhile_cons_of_neg (by simp [hc])] at heq
    injection heq with h1 h2
    subst h1; subst h2
    rfl

theorem specRuns_cons_sep {c : Char} (cs : List Char) (hc : isWordChar c = false) :
    specRuns (c :: cs) = specRuns cs := by
  have hdrop : List.dropWhile (fun x => !isWordChar x) (c :: cs)
      = List.dropWhile (fun x => !isWordChar x) cs :=
    List.dropWhile_cons_of_pos (by simp [hc])
  rw [specRuns.eq_def (c :: cs), specRuns.eq_def cs]
  split
  · next heq =>
    rw [hdrop] at heq
    split
    · rfl
    · next c2 rest2 heq2 => rw [heq] at heq2; cases heq2
  · next c1 rest heq =>
    rw [hdrop] at heq
    split
    · next heq2 => rw [heq] at heq2; cases heq2
    · next c2 rest2 heq2 =>
      rw [heq] at heq2
      injection heq2 with h1 h2
      subst h1; subst h2
      rfl

/-! ### The scanner computes the maximal runs -/

theorem tokenizeAux_eq : ∀ (cs : List Char) (acc : List Char),
    tokenizeAux cs acc =
      if acc.isEmpty then specRuns cs
      else (acc.reverse ++ cs.takeWhile isWordChar) ::
        specRuns (cs.dropWhile isWordChar)
  | [], acc => by
    cases acc <;> simp [tokenizeAux, specRuns_nil]
  | c :: cs, acc => by
    by_cases hc : isWordChar c = true
    · have hrec := tokenizeAux_eq cs (c :: acc)
      simp only [tokenizeAux, hc, if_true, List.isEmpty_cons] at hrec ⊢
      rw [hrec]
      cases acc with
      | nil =>
        simp [specRuns_cons_word cs hc, List.takeWhile_cons, List.dropWhile_cons, hc]
      | cons a as =>
        simp [List.takeWhile_cons, List.dropWhile_cons, hc]
    · have hc' : isWordChar c = false := by
        cases h : isWordChar c
        · rfl
        · exact absurd h hc
      have hrec := tokenizeAux_eq cs []
      simp only [List.isEmpty_nil, if_true] at hrec
      cases acc with
      | nil =>
        simp only [tokenizeAux, hc', Bool.false_eq_true, if_false,
          List.isEmpty_nil, if_true]
        rw [hrec, specRuns_cons_sep cs hc']
      | cons a as =>
        simp only [tokenizeAux, hc', Bool.false_eq_true, if_false,
          List.isEmpty_cons, if_false]
        rw [hrec]
        simp [List.takeWhile_cons, List.dropWhile_cons, hc',
          specRuns_cons_sep cs hc']

theorem tokenize_eq_specRuns (cs : List Char) : tokenize cs = specRuns cs := by
  have h := tokenizeAux_eq cs []
  simpa [tokenize] using h

/-! ### Stability of the sort used by `most_common` -/

theorem filter_orderedInsert_count_eq {c : Nat} {a : String × Nat} (ha : a.2 = c) :
    ∀ l : List (String × Nat),
      (List.orderedInsert countDescOrder a l).filter (fun p => decide (p.2 = c)) =
        a :: l.filter (fun p => decide (p.2 = c))
  | [] => by simp [List.orderedInsert, ha]
  | b :: l => by
    by_cases hr : countDescOrder a b
    · simp only [List.orderedInsert, if_pos hr]
      simp [ha]
    · have hb : ¬ (b.2 = c) := by
        simp only [countDescOrder, not_le] at hr
        omega
      simp only [List.orderedInsert, if_neg hr]
      rw [List.filter_cons_of_neg (by simp [hb]),
        List.filter_cons_of_neg (by simp [hb]),
        filter_orderedInsert_count_eq ha l]

theorem filter_orderedInsert_count_ne {c : Nat} {a : String × Nat} (ha : ¬ a.2 = c) :
    ∀ l : List (String × Nat),
      (List.orderedInsert countDescOrder a l).filter (fun p => decide (p.2 = c)) =
        l.filter (fun p => decide (p.2 = c))
  | [] => by simp [List.orderedInsert, ha]
  | b :: l => by
    by_cases hr : countDescOrder a b
    · simp only [List.orderedInsert, if_pos hr]
      simp [ha]
    · simp only [List.orderedInsert, if_neg hr]
      by_cases hb : b.2 = c
      · rw [List.filter_cons_of_pos (by simp [hb]),
          List.filter_cons_of_pos (by simp [hb]),
          filter_orderedInsert_count_ne ha l]
      · rw [List.filter_cons_of_neg (by simp [hb]),
          List.filter_cons_of_neg (by simp [hb]),
          filter_orderedInsert_count_ne ha l]

/-- Stability of `insertionSort countDescOrder`: the elements carrying any
fixed count `c` come out in exactly the order they went in. -/
theorem filter_insertionSort_count (c : Nat) :
    ∀ l : List (String × Nat),
      (l.insertionSort countDescOrder).filter (fun p => decide (p.2 = c)) =
        l.filter (fun p => decide (p.2 = c))
  | [] => rfl
  | a :: l => by
    simp only [List.insertionSort]
    by_cases ha : a.2 = c
    · rw [filter_orderedInsert_count_eq ha, filter_insertionSort_count c l,
        List.filter_cons_of_pos (by simp [ha])]
    · rw [filter_orderedInsert_count_ne ha, filter_insertionSort_count c l,
        List.filter_cons_of_neg (by simp [ha])]

/-! ### `firstDedup` -/

theorem mem_firstDedup {u : String} : ∀ {l : List String}, u ∈ firstDedup l ↔ u ∈ l
  | [] => Iff.rfl
  | t :: ts => by
    simp only [firstDedup, List.mem_cons, List.mem_filter, bne_iff_ne]
    by_cases h : u = t
    · simp [h]
    · simp [h, mem_firstDedup (l := ts)]

theorem nodup_firstDedup : ∀ l : List String, (firstDedup l).Nodup
  | [] => List.nodup_nil
  | t :: ts => by
    simp only [firstDedup]
    rw [List.nodup_cons]
    constructor
    · intro hmem
      have := (List.mem_filter.mp hmem).2
      simp at this
    · exact (nodup_firstDedup ts).filter _

/-- The keys of the counter, read left to right, are ordered by the position
of their first occurrence in the underlying token stream. -/
theorem pairwise_indexOf_firstDedup :
    ∀ l : List String,
      (firstDedup l).Pairwise (fun a b => l.indexOf a < l.indexOf b)
  | [] => List.Pairwise.nil
  | t :: ts => by
    simp only [firstDedup]
    rw [List.pairwise_cons]
    constructor
    · intro b hb
      have hbne : b ≠ t := by
        have := (List.mem_filter.mp hb).2
        simpa using this
      have h1 : (t == t) = true := by simp
      have h2 : (t == b) = false := by simp [Ne.symm hbne]
      rw [List.indexOf_cons, List.indexOf_cons, h1, h2]
      simp
    · have hts := pairwise_indexOf_firstDedup ts
      have hfil := hts.filter (fun u => u != t)
      refine hfil.imp_of_mem ?_
      intro a b hma hmb hab
      have hane : (t == a) = false := by
        have : a ≠ t := by simpa using (List.mem_filter.mp hma).2
        simp [Ne.symm this]
      have hbne : (t == b) = false := by
        have : b ≠ t := by simpa using (List.mem_filter.mp hmb).2
        simp [Ne.symm this]
      rw [List.indexOf_cons, List.indexOf_cons, hane, hbne]
      simp only [cond_false]
      exact Nat.succ_lt_succ hab

/-! ### Bridge lemmas about `extract_keywords` -/

theorem mem_of_mem_extract {text : String} {n : Int} {p : String × Nat}
    (hp : p ∈ extract_keywords text n) :
    p ∈ counterItems (filteredWords text) := by
  have h1 : p ∈ (counterItems (filteredWords text)).insertionSort countDescOrder :=
    List.mem_of_mem_take hp
  exact (List.perm_insertionSort countDescOrder _).subset h1

theorem of_mem_counterItems {l : List String} {p : String × Nat}
    (hp : p ∈ counterItems l) : p.1 ∈ l ∧ p.2 = l.count p.1 := by
  simp only [counterItems, List.mem_map] at hp
  obtain ⟨t, ht, rfl⟩ := hp
  exact ⟨mem_firstDedup.mp ht, rfl⟩

theorem of_mem_filteredWords {text : String} {w : String}
    (hw : w ∈ filteredWords text) : ¬ w ∈ stop ∧ 2 < w.length := by
  have h := (List.mem_filter.mp hw).2
  simp only [Bool.and_eq_true, Bool.not_eq_true', decide_eq_true_eq] at h
  refine ⟨fun hmem => ?_, h.2⟩
  have hc : stop.contains w = true := by
    simp [List.contains, hmem]
  rw [h.1] at hc
  cases hc

theorem length_extract_le (text : String) (n : Int) :
    (extract_keywords text n).length ≤ n.toNat := by
  simp only [extract_keywords, most_common]
  exact List.length_take_le _ _

/-- The counter items are ordered by first occurrence of their keys in the
token stream. -/
theorem pairwise_indexOf_counterItems (l : List String) :
    (counterItems l).Pairwise (fun a b => l.indexOf a.1 < l.indexOf b.1) := by
  simp only [counterItems]
  rw [List.pairwise_map]
  exact pairwise_indexOf_firstDedup l

/-- The full ordering guarantee on the output of `extract_keywords`: counts
are non-increasing, and among equal counts the first-occurrence position in
the filtered token stream is strictly increasing. -/
theorem extract_keywords_pairwise (text : String) (n : Int) :
    (extract_keywords text n).Pairwise (fun a b =>
      b.2 ≤ a.2 ∧ (a.2 = b.2 →
        (filteredWords text).indexOf a.1 < (filteredWords text).indexOf b.1)) := by
  have hsorted : ((counterItems (filteredWords text)).insertionSort
      countDescOrder).Pairwise countDescOrder :=
    List.sorted_insertionSort countDescOrder (counterItems (filteredWords text))
  have hstable : ∀ c : Nat,
      (((counterItems (filteredWords text)).insertionSort countDescOrder).filter
          (fun p => decide (p.2 = c))).Pairwise
        (fun a b =>
          (filteredWords text).indexOf a.1 < (filteredWords text).indexOf b.1) := by
    intro c
    rw [filter_insertionSort_count]
    exact (pairwise_indexOf_counterItems (filteredWords text)).filter _
  have hstable' : ((counterItems (filteredWords text)).insertionSort
      countDescOrder).Pairwise (fun a b => a.2 = b.2 →
        (filteredWords text).indexOf a.1 < (filteredWords text).indexOf b.1) := by
    rw [List.pairwise_iff_getElem]
    intro i j hi hj hij hc
    have h1 := List.pairwise_filter.mp
      (hstable ((((counterItems (filteredWords text)).insertionSort
        countDescOrder).get ⟨i, hi⟩).2))
    rw [List.pairwise_iff_getElem] at h1
    exact h1 i j hi hj hij rfl hc.symm
  have hand := hsorted.and hstable'
  have hsub : List.Sublist (extract_keywords text n)
      ((counterItems (filteredWords text)).insertionSort countDescOrder) := by
    simp only [extract_keywords, most_common]
    exact List.take_sublist _ _
  exact (hand.sublist hsub).imp (fun h => And.intro h.1 h.2)

/-! ### The claims -/

/-- Claim C1: on the text "cat dog cat dog bird" with topN = 3 the function
returns exactly [("cat", 2), ("dog", 2), ("bird", 1)]; in general the output
pairs are ordered by count descending, and pairs with equal counts appear in
the order in which their tokens first occur in the token stream (stable
sort). -/
theorem claim_C1 :
    extract_keywords "cat dog cat dog bird" 3 =
      [("cat", 2), ("dog", 2), ("bird", 1)] ∧
    ∀ (text : String) (n : Int),
      (extract_keywords text n).Pairwise (fun a b =>
        b.2 ≤ a.2 ∧ (a.2 = b.2 →
          (filteredWords text).indexOf a.1 < (filteredWords text).indexOf b.1)) :=
  ⟨by decide, extract_keywords_pairwise⟩

/-- Claim C2: for every text and every topN ≥ 0 the output has at most topN
entries. -/
theorem claim_C2 (text : String) (n : Int) (h : 0 ≤ n) :
    ((extract_keywords text n).length : Int) ≤ n := by
  calc ((extract_keywords text n).length : Int) ≤ (n.toNat : Int) := by
        exact_mod_cast length_extract_le text n
    _ = n := Int.toNat_of_nonneg h

theorem claim_C2_witness :
    0 ≤ (2 : Int) ∧ ((extract_keywords "cat dog cat dog bird" 2).length : Int) ≤ 2 :=
  ⟨by decide, claim_C2 "cat dog cat dog bird" 2 (by decide)⟩

/-- Claim C3: `extract_keywords` is total: for every text and every topN it
returns a result (the embedding is a total computable function; no exception
path exists). -/
theorem claim_C3 (text : String) (n : Int) :
    ∃ r : List (String × Nat), extract_keywords text n = r :=
  ⟨extract_keywords text n, rfl⟩

/-- Claim C4: degenerate inputs give an empty result, not an error: empty
text gives [] for every topN, and topN = 0 gives [] for every text. -/
theorem claim_C4 :
    (∀ n : Int, extract_keywords "" n = []) ∧
    (∀ text : String, extract_keywords text 0 = []) := by
  constructor
  · intro n
    show List.take n.toNat ([] : List (String × Nat)) = []
    exact List.take_nil
  · intro text
    simp [extract_keywords, most_common]

/-- Claim C5: no stop word and no token of length ≤ 2 ever appears in the
output; text consisting solely of stop words gives the empty result. -/
theorem claim_C5 :
    (∀ n : Int, extract_keywords "the and of to" n = []) ∧
    (∀ (text : String) (n : Int) (p : String × Nat),
      p ∈ extract_keywords text n → ¬ p.1 ∈ stop ∧ 2 < p.1.length) := by
  constructor
  · intro n
    show List.take n.toNat ([] : List (String × Nat)) = []
    exact List.take_nil
  · intro text n p hp
    exact of_mem_filteredWords (of_mem_counterItems (mem_of_mem_extract hp)).1

theorem claim_C5_witness :
    (("cat", 2) ∈ extract_keywords "cat dog cat dog bird" 3) ∧
    (¬ ("cat", 2).1 ∈ stop ∧ 2 < ("cat", 2).1.length) :=
  ⟨by decide, claim_C5.2 "cat dog cat dog bird" 3 ("cat", 2) (by decide)⟩

/-- Claim C6: tokenization segments the lower-cased text into maximal runs
of ASCII letters and apostrophes (digits, other punctuation and whitespace
separate tokens and are discarded); in particular "don't stop2think"
tokenizes to ["don't", "stop", "think"], and the scanner agrees with the
spec-side maximal-run segmentation on every input. -/
theorem claim_C6 :
    wordsOf ("don".push apos ++ "t stop2think") =
      [("don".push apos).push 't', "stop", "think"] ∧
    ∀ cs : List Char, tokenize cs = specRuns cs :=
  ⟨by decide, tokenize_eq_specRuns⟩

/-- Claim C7: counting is case-folded over the whole text: the text
"Apple apple APPLE" yields the single pair ("apple", 3) for every topN ≥ 1,
and in general every returned count is the number of occurrences of the
token in the filtered token stream of the whole text. -/
theorem claim_C7 :
    (∀ n : Int, 1 ≤ n →
      extract_keywords "Apple apple APPLE" n = [("apple", 3)]) ∧
    (∀ (text : String) (n : Int) (p : String × Nat),
      p ∈ extract_keywords text n → p.2 = (filteredWords text).count p.1) := by
  constructor
  · intro n hn
    have hs : List.insertionSort countDescOrder
        (counterItems (filteredWords "Apple apple APPLE")) = [("apple", 3)] := by
      decide
    have hn' : n.toNat = (n.toNat - 1) + 1 := by omega
    show (List.insertionSort countDescOrder
        (counterItems (filteredWords "Apple apple APPLE"))).take n.toNat = [("apple", 3)]
    rw [hs, hn']
    simp
  · intro text n p hp
    exact (of_mem_counterItems (mem_of_mem_extract hp)).2

theorem claim_C7_witness :
    extract_keywords "Apple apple APPLE" 2 = [("apple", 3)] ∧
    (3 : Nat) = (filteredWords "Apple apple APPLE").count "apple" :=
  ⟨claim_C7.1 2 (by decide),
   claim_C7.2 "Apple apple APPLE" 2 ("apple", 3) (by decide)⟩

/-- Claim C8: `extract_keywords` is deterministic: two calls with identical
inputs return identical output (in this embedding it is a pure function of
`text`, `topN` and the fixed stop-word set, with no mutable state). -/
theorem claim_C8 (t₁ t₂ : String) (n₁ n₂ : Int) (ht : t₁ = t₂) (hn : n₁ = n₂) :
    extract_keywords t₁ n₁ = extract_keywords t₂ n₂ := by
  rw [ht, hn]

theorem claim_C8_witness :
    "good movie" = "good movie" ∧ (4 : Int) = 4 ∧
    extract_keywords "good movie" 4 = extract_keywords "good movie" 4 :=
  ⟨rfl, rfl, claim_C8 "good movie" "good movie" 4 4 rfl rfl⟩

/-- Claim C9: the topN argument defaults to 5: a call without it equals a
call with 5, so it returns at most 5 pairs. -/
theorem claim_C9 (text : String) :
    extract_keywords text = extract_keywords text 5 ∧
    (extract_keywords text).length ≤ 5 := by
  refine ⟨rfl, ?_⟩
  have h := length_extract_le text 5
  simpa using h

/-- Claim C10: a negative topN yields the empty list, with no
invalid-argument error. -/
theorem claim_C10 (text : String) (n : Int) (h : n < 0) :
    extract_keywords text n = [] := by
  have h0 : n.toNat = 0 := by omega
  simp only [extract_keywords, most_common, h0, List.take_zero]

theorem claim_C10_witness :
    (-1 : Int) < 0 ∧ extract_keywords "cat dog cat dog bird" (-1) = [] :=
  ⟨by decide, claim_C10 "cat dog cat dog bird" (-1) (by decide)⟩

end Sentiment
